import Mathlib

/-!
Verification of the line-wrapping and justification engine of the `md`
markdown viewer, a shallow embedding of `src/renderer/layout.rs` (plus the
`StyledWord` data model of `src/markdown_parser.rs`).

Modelling conventions:
  - Rust `usize` values are `Nat`; `usize` subtraction is Nat subtraction at
    the places where the Rust code provably cannot underflow on the inputs
    the theorems quantify over.
  - a Rust `assert!` failure (a panic) is modelled by `Option`: `none` means
    the computation dies.
  - `&str` text is `List Char` (the engine only measures unit lengths and
    splits at unit indices, `str::len` and `str::split_at`).
  - the two unbounded loops whose bound is data-dependent (the word-splitting
    `while` loop and the outer packing `while` loop) are given explicit fuel
    equal to the quantity the Rust loop consumes, so every definition reduces
    in the kernel; fuel sufficiency is proved where a theorem needs it.
  - the `rand 0.8` pieces the source instantiates (`SmallRng` =
    `Xoshiro256PlusPlus` seeded with the hard-coded 32-byte constant, and
    `Rng::gen_range` via Lemire rejection sampling) are embedded directly;
    the rejection loop gets fuel, and `none` on fuel exhaustion.
-/

namespace MdLayout

/-- Style from `markdown_parser.rs`: three independent boolean flags. -/
structure Style where
  bold : Bool
  italic : Bool
  code : Bool
deriving DecidableEq, Repr

/-- The `Default` instance of `Style`: all flags false. -/
def Style.default : Style := ⟨false, false, false⟩

/-- StyledWord from `markdown_parser.rs`: a text span plus a style. -/
structure StyledWord where
  text : List Char
  style : Style
deriving DecidableEq, Repr

/-- LayoutElement from `layout.rs`. -/
inductive LayoutElement where
  | word : StyledWord → LayoutElement
  | whitespace : Nat → LayoutElement
deriving DecidableEq, Repr

/-- LayoutLine from `layout.rs`. -/
structure LayoutLine where
  elements : List LayoutElement
deriving DecidableEq, Repr

/-- WordsInLine from `layout.rs` (intermediate packing state). -/
structure WordsInLine where
  words : List StyledWord
  remaining_space : Nat
deriving DecidableEq, Repr

/-- styled_word_length from `layout.rs`: `word.text.len()`. -/
def styled_word_length (w : StyledWord) : Nat := w.text.length

/-- split_styled_word from `layout.rs`: `str::split_at`, style inherited. -/
def split_styled_word (w : StyledWord) (index : Nat) : StyledWord × StyledWord :=
  (⟨w.text.take index, w.style⟩, ⟨w.text.drop index, w.style⟩)

/-! The pseudo-random generator used by `get_unique_random_numbers`:
`rand 0.8`'s `SmallRng`, which on a 64-bit target is `Xoshiro256PlusPlus`
(32-byte seed read as four little-endian `u64` words). -/

/-- Two to the 64th, the `u64` / `usize` modulus. -/
def U64 : Nat := 18446744073709551616

/-- Wrapping `u64` addition. -/
def wrapAdd (a b : Nat) : Nat := (a + b) % U64

/-- Rotate a `u64` left by `k` bits (`u64::rotate_left`). -/
def rotl64 (x k : Nat) : Nat := ((x <<< k) % U64) ||| (x >>> (64 - k))

/-- State of `Xoshiro256PlusPlus`: four `u64` words. -/
structure Xoshiro256PP where
  s0 : Nat
  s1 : Nat
  s2 : Nat
  s3 : Nat
deriving DecidableEq, Repr

/-- One step of `Xoshiro256PlusPlus::next_u64` from `rand 0.8`. -/
def Xoshiro256PP.next (g : Xoshiro256PP) : Nat × Xoshiro256PP :=
  let result := wrapAdd (rotl64 (wrapAdd g.s0 g.s3) 23) g.s0
  let t := (g.s1 <<< 17) % U64
  let a2 := g.s2 ^^^ g.s0
  let a3 := g.s3 ^^^ g.s1
  let a1 := g.s1 ^^^ a2
  let a0 := g.s0 ^^^ a3
  let b2 := a2 ^^^ t
  let b3 := rotl64 a3 45
  (result, ⟨a0, a1, b2, b3⟩)

/-- Little-endian `u64` from a list of bytes (`read_u64_into`). -/
def leU64 (bs : List Nat) : Nat := bs.foldr (fun b acc => b + 256 * acc) 0

/-- The hard-coded 32-byte SEED constant from `get_unique_random_numbers`. -/
def SEED : List Nat :=
  [112, 111, 8, 251, 183, 240, 224, 102, 93, 80, 201, 131, 121, 56, 179, 229,
   173, 121, 174, 140, 110, 128, 175, 230, 32, 98, 16, 147, 254, 24, 1, 86]

/-- SmallRng::from_seed(SEED): the seed is nonzero, so the state is just the
four little-endian words of the seed bytes. -/
def seededRng : Xoshiro256PP :=
  ⟨leU64 (SEED.take 8), leU64 ((SEED.drop 8).take 8),
   leU64 ((SEED.drop 16).take 8), leU64 ((SEED.drop 24).take 8)⟩

/-- Bit length with fuel (64 suffices for any `u64` value); structural so it
reduces in the kernel. -/
def bitLenGo : Nat → Nat → Nat
  | 0, _ => 0
  | fuel + 1, n => if n = 0 then 0 else bitLenGo fuel (n / 2) + 1

/-- Leading zero bits of a nonzero `u64` value (`u64::leading_zeros`). -/
def u64LeadingZeros (r : Nat) : Nat := 64 - bitLenGo 64 r

/-- The rejection loop of `rand 0.8` `UniformInt::sample_single_inclusive`
(Lemire widening-multiply method). The Rust loop is unbounded; each pass
accepts with probability above one half, and on every concrete input
evaluated in this file the first draw is accepted. Fuel exhaustion is `none`. -/
def sampleLoop (range zone : Nat) : Nat → Xoshiro256PP → Option (Nat × Xoshiro256PP)
  | 0, _ => none
  | fuel + 1, g =>
    let v := (Xoshiro256PP.next g).1
    let g1 := (Xoshiro256PP.next g).2
    let hi := v * range / U64
    let lo := v * range % U64
    if lo ≤ zone then some (hi, g1) else sampleLoop range zone fuel g1

/-- UniformInt::sample_single_inclusive for `usize` on a 64-bit target:
requires `low ≤ high`, uses zone `(range << range.leading_zeros()) - 1`.
(The Rust `range == 0` full-width wrap case cannot arise for `Nat` bounds
below two to the 64th and is dropped.) -/
def sample_single_inclusive (fuel low high : Nat) (g : Xoshiro256PP) :
    Option (Nat × Xoshiro256PP) :=
  if low ≤ high then
    let range := high - low + 1
    let zone := (range <<< u64LeadingZeros range) % U64 - 1
    match sampleLoop range zone fuel g with
    | some (hi, g1) => some (low + hi, g1)
    | none => none
  else none

/-- Rng::gen_range(low..high) for `usize` in `rand 0.8`: asserts `low < high`
and samples inclusively from `[low, high - 1]`. -/
def gen_range (fuel low high : Nat) (g : Xoshiro256PP) : Option (Nat × Xoshiro256PP) :=
  if low < high then sample_single_inclusive fuel low (high - 1) g else none

/-- Fuel given to each rejection-sampling loop. -/
def RNG_FUEL : Nat := 64

/-- Vec::swap on the numbers vector; both indices are in bounds at every call
in `get_unique_random_numbers` (out of bounds would be a Rust panic, left as
the identity here because it is unreachable). -/
def listSwap (l : List Nat) (i j : Nat) : List Nat :=
  match l[i]?, l[j]? with
  | some a, some b => (l.set i b).set j a
  | _, _ => l

/-- The partial-shuffle `for` loop of `get_unique_random_numbers`: `n` more
iterations to go, `i` the current index. -/
def shuffleGo (fuel : Nat) : List Nat → Xoshiro256PP → Nat → Nat → Option (List Nat)
  | numbers, _, _, 0 => some numbers
  | numbers, g, i, n + 1 =>
    match gen_range fuel 0 (numbers.length - i) g with
    | some (j, g1) => shuffleGo fuel (listSwap numbers i j) g1 (i + 1) n
    | none => none

/-- Insert into an ascending list (helper for the model of `Vec::sort`). -/
def insertAsc (x : Nat) : List Nat → List Nat
  | [] => [x]
  | y :: ys => if x ≤ y then x :: y :: ys else y :: insertAsc x ys

/-- Model of `Vec::sort` (ascending; the sorted elements are distinct, so any
correct sort produces the same list). -/
def sortAsc : List Nat → List Nat
  | [] => []
  | x :: xs => insertAsc x (sortAsc xs)

/-- get_unique_random_numbers from `layout.rs`: asserts `end >= start` and
`count <= end - start`, partially shuffles `(start..end).collect()` with the
seeded SmallRng, truncates to `count` (`Vec::resize` with `count` at most the
length truncates), sorts ascending, reverses. `none` models a failed assert
or an exhausted sampling loop. -/
def get_unique_random_numbers (count start stop : Nat) : Option (List Nat) :=
  if start ≤ stop then
    if count ≤ stop - start then
      match shuffleGo RNG_FUEL (List.range' start (stop - start)) seededRng 0 count with
      | some numbers => some ((sortAsc (numbers.take count)).reverse)
      | none => none
    else none
  else none

/-! The justifier: `WordsInLine::align_left` and `WordsInLine::spread_evenly`. -/

/-- The word/separator part of `WordsInLine::align_left`: every word, with a
single `Whitespace(1)` after each word except the last. -/
def alignLeftElements : List StyledWord → List LayoutElement
  | [] => []
  | [w] => [.word w]
  | w :: w2 :: rest => .word w :: .whitespace 1 :: alignLeftElements (w2 :: rest)

/-- WordsInLine::align_left from `layout.rs`. -/
def WordsInLine.align_left (line : WordsInLine) : LayoutLine :=
  ⟨alignLeftElements line.words ++
    (if line.remaining_space > 0 then [LayoutElement.whitespace line.remaining_space] else [])⟩

/-- The per-gap step of the `add_whitespace` closure in
`WordsInLine::spread_evenly`: when the gap index `i` equals the last element
of the extra-spaces vector, emit `Whitespace(spaces_per_gap + 2)` and pop it;
otherwise emit `Whitespace(spaces_per_gap + 1)` and keep the vector. -/
def gapWhitespace (spaces_per_gap i : Nat) (extras : List Nat) : LayoutElement × List Nat :=
  match extras.getLast? with
  | some idx =>
    if i = idx then (LayoutElement.whitespace (spaces_per_gap + 2), extras.dropLast)
    else (LayoutElement.whitespace (spaces_per_gap + 1), extras)
  | none => (LayoutElement.whitespace (spaces_per_gap + 1), extras)

/-- The emission loop of `WordsInLine::spread_evenly`: emit each word; after
every word except the last, emit the gap whitespace. -/
def spreadElements (spaces_per_gap : Nat) : Nat → List StyledWord → List Nat → List LayoutElement
  | _, [], _ => []
  | _, [w], _ => [.word w]
  | i, w :: w2 :: rest, extras =>
    LayoutElement.word w :: (gapWhitespace spaces_per_gap i extras).1 ::
      spreadElements spaces_per_gap (i + 1) (w2 :: rest)
        (gapWhitespace spaces_per_gap i extras).2

/-- WordsInLine::spread_evenly from `layout.rs`. Note the source computes
`num_extra_spaces = remaining_space - spaces_per_gap` (not
`remaining_space - gaps * spaces_per_gap`); the failed
`assert!(num_extra_spaces <= gaps_between_words)` is `none`. -/
def WordsInLine.spread_evenly (line : WordsInLine) : Option LayoutLine :=
  if line.words.length = 0 then none
  else if line.words.length = 1 then some line.align_left
  else
    let gaps_between_words := line.words.length - 1
    let spaces_per_gap := line.remaining_space / gaps_between_words
    let num_extra_spaces := line.remaining_space - spaces_per_gap
    if num_extra_spaces ≤ gaps_between_words then
      match get_unique_random_numbers num_extra_spaces 0 gaps_between_words with
      | some extra_spaces => some ⟨spreadElements spaces_per_gap 0 line.words extra_spaces⟩
      | none => none
    else none

/-! The word splitter. -/

/-- The `while` loop of `split_words_longer_than_screen_width` for one word,
with fuel. Each Rust iteration shrinks the word by `screen_width ≥ 1` units,
so fuel equal to the initial length is sufficient (for `screen_width = 0` the
Rust loop diverges; every theorem below assumes `screen_width ≥ 1`). -/
def splitWordGo (screen_width : Nat) : Nat → StyledWord → List StyledWord
  | 0, word => [word]
  | fuel + 1, word =>
    if screen_width < styled_word_length word then
      (split_styled_word word screen_width).1 ::
        splitWordGo screen_width fuel (split_styled_word word screen_width).2
    else [word]

/-- The per-word body of `split_words_longer_than_screen_width`. -/
def splitWordLoop (screen_width : Nat) (word : StyledWord) : List StyledWord :=
  splitWordGo screen_width (styled_word_length word) word

/-- split_words_longer_than_screen_width from `layout.rs`. -/
def split_words_longer_than_screen_width (screen_width : Nat) (words : List StyledWord) :
    List StyledWord :=
  (words.map (splitWordLoop screen_width)).flatten

/-! The line packer. -/

/-- The inner `loop` of `get_words_in_lines`: packs one line from a word
stream. Returns the line words, the final `remaining_space`, and the
unconsumed words. The `[]` case is unreachable (the loop is entered only with
a nonempty stream). A placed word is the line's last exactly when no words
remain or the remaining space is at most the next word's length; otherwise
one more unit is subtracted for the mandatory separator. -/
def packLine : Nat → List StyledWord → List StyledWord × Nat × List StyledWord
  | remaining_space, [] => ([], remaining_space, [])
  | remaining_space, [w] => ([w], remaining_space - styled_word_length w, [])
  | remaining_space, w :: next :: rest =>
    if remaining_space - styled_word_length w ≤ styled_word_length next then
      ([w], remaining_space - styled_word_length w, next :: rest)
    else
      ((w :: (packLine (remaining_space - styled_word_length w - 1) (next :: rest)).1,
        (packLine (remaining_space - styled_word_length w - 1) (next :: rest)).2.1,
        (packLine (remaining_space - styled_word_length w - 1) (next :: rest)).2.2) :
        List StyledWord × Nat × List StyledWord)

/-- The outer `while` loop of `get_words_in_lines`, with fuel. Each pass
consumes at least one word, so fuel equal to the stream length is
sufficient. -/
def packAllGo (width : Nat) : Nat → List StyledWord → List WordsInLine
  | 0, _ => []
  | _ + 1, [] => []
  | fuel + 1, w :: rest =>
    ⟨(packLine width (w :: rest)).1, (packLine width (w :: rest)).2.1⟩ ::
      packAllGo width fuel (packLine width (w :: rest)).2.2

/-- get_words_in_lines from `layout.rs`. -/
def get_words_in_lines (screen_width : Nat) (words : List StyledWord) : List WordsInLine :=
  packAllGo screen_width (split_words_longer_than_screen_width screen_width words).length
    (split_words_longer_than_screen_width screen_width words)

/-! The orchestrator. -/

/-- The `for` loop of `calculate_layout`: `spread_evenly` for every line
except the last, `align_left` for the last. -/
def layoutLinesLoop : List WordsInLine → Option (List LayoutLine)
  | [] => some []
  | [line] => some [line.align_left]
  | line :: next :: rest =>
    match line.spread_evenly with
    | some l =>
      match layoutLinesLoop (next :: rest) with
      | some ls => some (l :: ls)
      | none => none
    | none => none

/-- calculate_layout from `layout.rs`. `none` models a panic. -/
def calculate_layout (screen_width : Nat) (words : List StyledWord) :
    Option (List LayoutLine) :=
  layoutLinesLoop (get_words_in_lines screen_width words)

/-! Spec-side measures used to state the claims. -/

/-- Rendered width of a layout element: the word's length, or the whitespace
count. -/
def elementWidth : LayoutElement → Nat
  | .word w => styled_word_length w
  | .whitespace n => n

/-- Rendered width of a layout line: the sum of its element widths. -/
def lineWidth (l : LayoutLine) : Nat := (l.elements.map elementWidth).sum

/-- The Word elements of an element sequence, in order. -/
def elementsWords (es : List LayoutElement) : List StyledWord :=
  es.filterMap fun e =>
    match e with
    | .word w => some w
    | .whitespace _ => none

/-- The Word elements of a line, in order. -/
def lineWords (l : LayoutLine) : List StyledWord := elementsWords l.elements

/-- The Whitespace widths of a line, in order. -/
def whitespaceWidths (l : LayoutLine) : List Nat :=
  l.elements.filterMap fun e =>
    match e with
    | .word _ => none
    | .whitespace n => some n

/-- Concatenated text of a word sequence. -/
def wordsText (ws : List StyledWord) : List Char := (ws.map StyledWord.text).flatten

/-! A second packer definition, following the specification text rather than
the code, for the refinement claim about the Line Packer. -/

/-- Modelled from the spec (Line Packer rule): place the next word by
subtracting its length from the budget; the placed word closes the line
exactly when no words remain or the budget is at most the next word's
length; otherwise one more unit is subtracted for the mandatory separator
and packing continues. -/
def specPlaceWords (budget : Nat) : List StyledWord → List StyledWord × Nat × List StyledWord
  | [] => ([], budget, [])
  | word :: stream =>
    if stream = [] ∨ budget - styled_word_length word ≤ styled_word_length (stream.headD word) then
      ([word], budget - styled_word_length word, stream)
    else
      ((word :: (specPlaceWords (budget - styled_word_length word - 1) stream).1,
        (specPlaceWords (budget - styled_word_length word - 1) stream).2.1,
        (specPlaceWords (budget - styled_word_length word - 1) stream).2.2) :
        List StyledWord × Nat × List StyledWord)

/-- Modelled from the spec: repeatedly open a line with a budget equal to the
target width and place words greedily until the stream is exhausted. -/
def specGreedyGo (target_width : Nat) : Nat → List StyledWord → List WordsInLine
  | 0, _ => []
  | _ + 1, [] => []
  | fuel + 1, word :: stream =>
    ⟨(specPlaceWords target_width (word :: stream)).1,
     (specPlaceWords target_width (word :: stream)).2.1⟩ ::
      specGreedyGo target_width fuel (specPlaceWords target_width (word :: stream)).2.2

/-- Modelled from the spec: the full greedy partition of a word stream. -/
def specGreedyPartition (target_width : Nat) (stream : List StyledWord) : List WordsInLine :=
  specGreedyGo target_width stream.length stream

/-! Concrete inputs used by counterexamples and witnesses. -/

/-- A word with the default (all-false) style. -/
def mkPlain (s : List Char) : StyledWord := ⟨s, Style.default⟩

def wAA : StyledWord := mkPlain ['a', 'a']

def wBB : StyledWord := mkPlain ['b', 'b']

def wCC : StyledWord := mkPlain ['c', 'c']

def wXX : StyledWord := mkPlain ['x', 'x']

def wA : StyledWord := mkPlain ['a']

def wB : StyledWord := mkPlain ['b']

def wC : StyledWord := mkPlain ['c']

def wD8 : StyledWord := mkPlain ['d', 'd', 'd', 'd', 'd', 'd', 'd', 'd']

def wHello : StyledWord := mkPlain ['H', 'e', 'l', 'l', 'o']

def wWorld : StyledWord := mkPlain ['w', 'o', 'r', 'l', 'd']

def wLong : StyledWord := mkPlain ['v', 'e', 'r', 'y', 'l', 'o', 'n', 'g', 'w', 'o', 'r', 'd']

/-! Helper lemmas shared by the claim theorems. -/

theorem elementsWords_word (w : StyledWord) (es : List LayoutElement) :
    elementsWords (.word w :: es) = w :: elementsWords es := rfl

theorem elementsWords_ws (n : Nat) (es : List LayoutElement) :
    elementsWords (.whitespace n :: es) = elementsWords es := rfl

theorem elementsWords_append (a b : List LayoutElement) :
    elementsWords (a ++ b) = elementsWords a ++ elementsWords b := by
  simp [elementsWords, List.filterMap_append]

theorem wordsText_cons (w : StyledWord) (ws : List StyledWord) :
    wordsText (w :: ws) = w.text ++ wordsText ws := by
  simp [wordsText]

/-- The align-left emission lists exactly the line's words, in order. -/
theorem elementsWords_alignLeft : ∀ ws : List StyledWord,
    elementsWords (alignLeftElements ws) = ws
  | [] => rfl
  | [_] => rfl
  | w :: w2 :: rest => by
    have ih := elementsWords_alignLeft (w2 :: rest)
    simp only [alignLeftElements, elementsWords_word, elementsWords_ws, ih]

/-- The Word elements of an align-left line are the line's words. -/
theorem lineWords_align_left (line : WordsInLine) :
    lineWords line.align_left = line.words := by
  unfold WordsInLine.align_left lineWords
  rw [elementsWords_append, elementsWords_alignLeft]
  split <;> simp [elementsWords]

/-- The gap whitespace is always a whitespace element of positive width. -/
theorem gapWhitespace_isWs (spaces_per_gap i : Nat) (extras : List Nat) :
    ∃ n, (gapWhitespace spaces_per_gap i extras).1 = LayoutElement.whitespace n ∧ 1 ≤ n := by
  unfold gapWhitespace
  split
  · split
    · exact ⟨spaces_per_gap + 2, rfl, by omega⟩
    · exact ⟨spaces_per_gap + 1, rfl, by omega⟩
  · exact ⟨spaces_per_gap + 1, rfl, by omega⟩

/-- The spread emission lists exactly the line's words, in order, whatever
the extra-spaces vector holds. -/
theorem elementsWords_spread (spaces_per_gap : Nat) :
    ∀ (ws : List StyledWord) (i : Nat) (extras : List Nat),
      elementsWords (spreadElements spaces_per_gap i ws extras) = ws
  | [], _, _ => rfl
  | [_], _, _ => rfl
  | w :: w2 :: rest, i, extras => by
    obtain ⟨n, hn, -⟩ := gapWhitespace_isWs spaces_per_gap i extras
    have ih := elementsWords_spread spaces_per_gap (w2 :: rest) (i + 1)
      (gapWhitespace spaces_per_gap i extras).2
    simp only [spreadElements, hn, elementsWords_word, elementsWords_ws, ih]

/-- The Word elements of a spread line are the line's words. -/
theorem lineWords_spread_evenly (line : WordsInLine) (l : LayoutLine)
    (h : line.spread_evenly = some l) : lineWords l = line.words := by
  simp only [WordsInLine.spread_evenly] at h
  split at h
  · exact absurd h (by simp)
  · split at h
    · cases h
      exact lineWords_align_left line
    · split at h
      · split at h
        · cases h
          exact elementsWords_spread _ _ _ _
        · exact absurd h (by simp)
      · exact absurd h (by simp)

/-- The layout loop preserves the concatenated word sequence of its input
lines. -/
theorem layoutLinesLoop_words : ∀ (wils : List WordsInLine) (ls : List LayoutLine),
    layoutLinesLoop wils = some ls →
    (ls.map lineWords).flatten = (wils.map WordsInLine.words).flatten
  | [], ls, h => by
    simp only [layoutLinesLoop, Option.some.injEq] at h
    subst h
    rfl
  | [line], ls, h => by
    simp only [layoutLinesLoop, Option.some.injEq] at h
    subst h
    simp [lineWords_align_left]
  | line :: next :: rest, ls, h => by
    simp only [layoutLinesLoop] at h
    cases hs : line.spread_evenly with
    | none => rw [hs] at h; exact absurd h (by simp)
    | some l =>
      rw [hs] at h
      cases hr : layoutLinesLoop (next :: rest) with
      | none => rw [hr] at h; exact absurd h (by simp)
      | some ls2 =>
        rw [hr] at h
        have ih := layoutLinesLoop_words (next :: rest) ls2 hr
        simp only [Option.some.injEq] at h
        subst h
        simp only [List.map_cons, List.flatten_cons, ih,
          lineWords_spread_evenly line l hs]

/-- The words of a packed line followed by the unconsumed words reconstruct
the input stream. -/
theorem packLine_append : ∀ (rs : Nat) (ws : List StyledWord),
    (packLine rs ws).1 ++ (packLine rs ws).2.2 = ws
  | _, [] => rfl
  | _, [_] => rfl
  | rs, w :: next :: rest => by
    have ih := packLine_append (rs - styled_word_length w - 1) (next :: rest)
    simp only [packLine]
    split
    · simp
    · simpa using ih

/-- A packed line is never empty. -/
theorem packLine_words_ne_nil (rs : Nat) (w : StyledWord) (rest : List StyledWord) :
    (packLine rs (w :: rest)).1 ≠ [] := by
  cases rest with
  | nil => simp [packLine]
  | cons next rest2 =>
    simp only [packLine]
    split <;> simp

/-- Packing one line consumes at least one word of the stream. -/
theorem packLine_rem_length_lt (rs : Nat) (w : StyledWord) (rest : List StyledWord) :
    (packLine rs (w :: rest)).2.2.length < (w :: rest).length := by
  have happ := congrArg List.length (packLine_append rs (w :: rest))
  rw [List.length_append] at happ
  have hne := packLine_words_ne_nil rs w rest
  have hpos : 0 < (packLine rs (w :: rest)).1.length := List.length_pos.mpr hne
  omega

/-- With fuel at least the stream length, the packed lines concatenate back
to the stream. -/
theorem packAllGo_words_flatten (width : Nat) : ∀ (fuel : Nat) (ws : List StyledWord),
    ws.length ≤ fuel → ((packAllGo width fuel ws).map WordsInLine.words).flatten = ws
  | 0, ws, h => by
    have : ws = [] := List.length_eq_zero.mp (Nat.le_zero.mp h)
    subst this
    rfl
  | _ + 1, [], _ => rfl
  | fuel + 1, w :: rest, h => by
    have hlt := packLine_rem_length_lt width w rest
    have ih := packAllGo_words_flatten width fuel ((packLine width (w :: rest)).2.2) (by
      simp only [List.length_cons] at h hlt
      omega)
    simp only [packAllGo, List.map_cons, List.flatten_cons, ih]
    exact packLine_append width (w :: rest)

/-- Every line produced by the packing loop is nonempty. -/
theorem packAllGo_words_ne_nil (width : Nat) : ∀ (fuel : Nat) (ws : List StyledWord),
    ∀ line ∈ packAllGo width fuel ws, line.words ≠ []
  | 0, ws => by simp [packAllGo]
  | _ + 1, [] => by simp [packAllGo]
  | fuel + 1, w :: rest => by
    intro line hline
    simp only [packAllGo, List.mem_cons] at hline
    rcases hline with h | h
    · subst h
      exact packLine_words_ne_nil width w rest
    · exact packAllGo_words_ne_nil width fuel _ line h

/-- The spec-modelled single-line placement agrees with the code's. -/
theorem specPlaceWords_eq_packLine : ∀ (budget : Nat) (ws : List StyledWord),
    specPlaceWords budget ws = packLine budget ws
  | _, [] => rfl
  | budget, [w] => by simp [specPlaceWords, packLine]
  | budget, w :: next :: rest => by
    have ih := specPlaceWords_eq_packLine (budget - styled_word_length w - 1) (next :: rest)
    by_cases hc : budget - styled_word_length w ≤ styled_word_length next
    · rw [specPlaceWords, packLine]
      simp only [List.headD_cons]
      rw [if_pos (Or.inr hc), if_pos hc]
    · rw [specPlaceWords, packLine]
      simp only [List.headD_cons]
      rw [if_neg (by simp only [List.cons_ne_nil, false_or]; exact hc), if_neg hc, ih]

/-- The spec-modelled greedy partition loop agrees with the code's. -/
theorem specGreedyGo_eq_packAllGo (width : Nat) : ∀ (fuel : Nat) (ws : List StyledWord),
    specGreedyGo width fuel ws = packAllGo width fuel ws
  | 0, _ => rfl
  | _ + 1, [] => rfl
  | fuel + 1, w :: rest => by
    have ih := specGreedyGo_eq_packAllGo width fuel
      ((specPlaceWords width (w :: rest)).2.2)
    simp only [specGreedyGo, packAllGo, specPlaceWords_eq_packLine] at ih ⊢
    rw [ih]

/-- The text chunks of a split word concatenate back to the original text. -/
theorem wordsText_splitWordGo (screen_width : Nat) : ∀ (fuel : Nat) (word : StyledWord),
    wordsText (splitWordGo screen_width fuel word) = word.text
  | 0, word => by simp [splitWordGo, wordsText]
  | fuel + 1, word => by
    by_cases h : screen_width < styled_word_length word
    · have ih := wordsText_splitWordGo screen_width fuel (split_styled_word word screen_width).2
      simp only [split_styled_word] at ih
      simp only [splitWordGo, if_pos h, wordsText_cons, split_styled_word, ih]
      exact List.take_append_drop screen_width word.text
    · simp [splitWordGo, if_neg h, wordsText]

/-- The per-word split preserves the word's text. -/
theorem wordsText_splitWordLoop (screen_width : Nat) (word : StyledWord) :
    wordsText (splitWordLoop screen_width word) = word.text :=
  wordsText_splitWordGo screen_width (styled_word_length word) word

/-- Splitting the whole stream preserves the concatenated text. -/
theorem wordsText_split_words (screen_width : Nat) : ∀ ws : List StyledWord,
    wordsText (split_words_longer_than_screen_width screen_width ws) = wordsText ws
  | [] => rfl
  | w :: rest => by
    have ih := wordsText_split_words screen_width rest
    simp only [split_words_longer_than_screen_width, List.map_cons, List.flatten_cons] at ih ⊢
    rw [show wordsText (splitWordLoop screen_width w ++
          (rest.map (splitWordLoop screen_width)).flatten) =
        wordsText (splitWordLoop screen_width w) ++
          wordsText ((rest.map (splitWordLoop screen_width)).flatten) by
      simp [wordsText]]
    rw [ih, wordsText_splitWordLoop, wordsText_cons]

/-- Every chunk of a split word is at most the screen width long, provided
the fuel covers the word's length and the width is positive. -/
theorem splitWordGo_length_le (screen_width : Nat) (hw : 1 ≤ screen_width) :
    ∀ (fuel : Nat) (word : StyledWord), styled_word_length word ≤ fuel →
      ∀ c ∈ splitWordGo screen_width fuel word, styled_word_length c ≤ screen_width
  | 0, word, hf => by
    intro c hc
    simp only [splitWordGo, List.mem_singleton] at hc
    subst hc
    omega
  | fuel + 1, word, hf => by
    intro c hc
    by_cases h : screen_width < styled_word_length word
    · simp only [splitWordGo, if_pos h, List.mem_cons] at hc
      rcases hc with rfl | hc
      · simp only [split_styled_word, styled_word_length, List.length_take]
        omega
      · refine splitWordGo_length_le screen_width hw fuel _ ?_ c hc
        simp only [split_styled_word, styled_word_length, List.length_drop] at *
        omega
    · simp only [splitWordGo, if_neg h, List.mem_singleton] at hc
      subst hc
      omega

/-- Every chunk of a split word inherits the original style. -/
theorem splitWordGo_style (screen_width : Nat) : ∀ (fuel : Nat) (word : StyledWord),
    ∀ c ∈ splitWordGo screen_width fuel word, c.style = word.style
  | 0, word => by simp [splitWordGo]
  | fuel + 1, word => by
    intro c hc
    by_cases h : screen_width < styled_word_length word
    · simp only [splitWordGo, if_pos h, List.mem_cons] at hc
      rcases hc with rfl | hc
      · rfl
      · have hrec := splitWordGo_style screen_width fuel (split_styled_word word screen_width).2 c hc
        simpa [split_styled_word] using hrec
    · simp only [splitWordGo, if_neg h, List.mem_singleton] at hc
      subst hc
      rfl

/-- The split of a word is never empty. -/
theorem splitWordGo_ne_nil (screen_width fuel : Nat) (word : StyledWord) :
    splitWordGo screen_width fuel word ≠ [] := by
  cases fuel with
  | zero => simp [splitWordGo]
  | succ fuel =>
    simp only [splitWordGo]
    split <;> simp

/-- Every chunk except the last has length exactly the screen width. -/
theorem splitWordGo_dropLast (screen_width : Nat) : ∀ (fuel : Nat) (word : StyledWord),
    ∀ c ∈ (splitWordGo screen_width fuel word).dropLast, styled_word_length c = screen_width
  | 0, word => by simp [splitWordGo]
  | fuel + 1, word => by
    intro c hc
    by_cases h : screen_width < styled_word_length word
    · rw [splitWordGo, if_pos h,
        List.dropLast_cons_of_ne_nil (splitWordGo_ne_nil screen_width fuel _)] at hc
      rcases List.mem_cons.mp hc with rfl | hc
      · simp only [split_styled_word, styled_word_length, List.length_take]
        simp only [styled_word_length] at h
        omega
      · exact splitWordGo_dropLast screen_width fuel _ c hc
    · simp [splitWordGo, if_neg h] at hc
  termination_by fuel _ => fuel

/-- A word not longer than the screen width is returned unchanged. -/
theorem splitWordGo_eq_self (screen_width fuel : Nat) (word : StyledWord)
    (h : ¬ screen_width < styled_word_length word) :
    splitWordGo screen_width fuel word = [word] := by
  cases fuel <;> simp [splitWordGo, h]

/-- The align-left emission never contains a zero-width whitespace. -/
theorem alignLeftElements_no_zero : ∀ ws : List StyledWord,
    LayoutElement.whitespace 0 ∉ alignLeftElements ws
  | [] => by simp [alignLeftElements]
  | [_] => by simp [alignLeftElements]
  | w :: w2 :: rest => by
    have ih := alignLeftElements_no_zero (w2 :: rest)
    simp only [alignLeftElements, List.mem_cons, not_or]
    exact ⟨by simp, by simp, ih⟩

/-- An align-left line never contains a zero-width whitespace. -/
theorem align_left_no_zero (line : WordsInLine) :
    LayoutElement.whitespace 0 ∉ line.align_left.elements := by
  unfold WordsInLine.align_left
  simp only [List.mem_append, not_or]
  refine ⟨alignLeftElements_no_zero line.words, ?_⟩
  split
  · next hpos =>
    simp only [List.mem_singleton]
    intro hcontra
    injection hcontra with h0
    omega
  · simp

/-- The spread emission never contains a zero-width whitespace. -/
theorem spreadElements_no_zero (spaces_per_gap : Nat) :
    ∀ (ws : List StyledWord) (i : Nat) (extras : List Nat),
      LayoutElement.whitespace 0 ∉ spreadElements spaces_per_gap i ws extras
  | [], _, _ => by simp [spreadElements]
  | [_], _, _ => by simp [spreadElements]
  | w :: w2 :: rest, i, extras => by
    obtain ⟨n, hn, hn1⟩ := gapWhitespace_isWs spaces_per_gap i extras
    have ih := spreadElements_no_zero spaces_per_gap (w2 :: rest) (i + 1)
      (gapWhitespace spaces_per_gap i extras).2
    simp only [spreadElements, hn, List.mem_cons, not_or]
    refine ⟨by simp, ?_, ih⟩
    intro hc
    injection hc with h0
    omega

/-- A successfully spread line never contains a zero-width whitespace. -/
theorem spread_evenly_no_zero (line : WordsInLine) (l : LayoutLine)
    (h : line.spread_evenly = some l) :
    LayoutElement.whitespace 0 ∉ l.elements := by
  simp only [WordsInLine.spread_evenly] at h
  split at h
  · exact absurd h (by simp)
  · split at h
    · cases h
      exact align_left_no_zero line
    · split at h
      · split at h
        · cases h
          exact spreadElements_no_zero _ _ _ _
        · exact absurd h (by simp)
      · exact absurd h (by simp)

/-- No line produced by the layout loop contains a zero-width whitespace. -/
theorem layoutLinesLoop_no_zero : ∀ (wils : List WordsInLine) (ls : List LayoutLine),
    layoutLinesLoop wils = some ls →
    ∀ l ∈ ls, LayoutElement.whitespace 0 ∉ l.elements
  | [], ls, h => by
    simp only [layoutLinesLoop, Option.some.injEq] at h
    subst h
    simp
  | [line], ls, h => by
    simp only [layoutLinesLoop, Option.some.injEq] at h
    subst h
    simpa using align_left_no_zero line
  | line :: next :: rest, ls, h => by
    simp only [layoutLinesLoop] at h
    cases hs : line.spread_evenly with
    | none => rw [hs] at h; exact absurd h (by simp)
    | some l0 =>
      rw [hs] at h
      cases hr : layoutLinesLoop (next :: rest) with
      | none => rw [hr] at h; exact absurd h (by simp)
      | some ls2 =>
        rw [hr] at h
        simp only [Option.some.injEq] at h
        subst h
        intro l hl
        rcases List.mem_cons.mp hl with rfl | hl
        · exact spread_evenly_no_zero line l hs
        · exact layoutLinesLoop_no_zero (next :: rest) ls2 hr l hl

/-! The claims. -/

/-- C1: the claim that every produced line's element widths sum to the
target width fails on the code. With target width 10 and the four two-letter
words below, the layout succeeds and its produced lines have widths 11 and
10: the interior line overflows by one because `spread_evenly` computes
`num_extra_spaces = remaining_space - spaces_per_gap` instead of
`remaining_space - gaps * spaces_per_gap`. -/
theorem c1_width_invariant_violated :
    (calculate_layout 10 [wAA, wBB, wCC, wXX]).map (fun ls => ls.map lineWidth) =
      some [11, 10] ∧ (11 : Nat) ≠ 10 := by decide

/-- C2: the claim that the justifier uses `extra_count = remaining_space -
gaps * base` fails on the code. The interior line with words "aa" "bb" "cc"
and remaining space 2 is reachable (target width 10, fourth word "xx"); there
`gaps = 2`, `base = 1`, the claimed formula gives 0 extra gaps (both gaps of
width 2), but the code computes `2 - 1 = 1` extra gap and emits whitespace
widths 3 and 2. -/
theorem c2_extra_count_formula_violated :
    get_words_in_lines 10 [wAA, wBB, wCC, wXX] =
      [⟨[wAA, wBB, wCC], 2⟩, ⟨[wXX], 8⟩] ∧
    (WordsInLine.spread_evenly ⟨[wAA, wBB, wCC], 2⟩).map whitespaceWidths =
      some [3, 2] ∧
    ([3, 2] : List Nat) ≠ [1 + 2 / 2, 1 + 2 / 2] := by decide

/-- C3: the claim that no assertion failure is reachable for well-formed
input fails on the code. With target width 10 and words "a" "b" "c"
"dddddddd", the interior line ["a", "b", "c"] has remaining space 5 and two
gaps; the code computes `num_extra_spaces = 5 - 2 = 3 > 2`, the assert
bounding extra spaces by the gap count fails, and the whole layout dies. -/
theorem c3_assert_failure_reachable :
    calculate_layout 10 [wA, wB, wC, wD8] = none ∧
    WordsInLine.spread_evenly ⟨[wA, wB, wC], 5⟩ = none := by decide

/-- C4: for every target width at least 1, whenever `calculate_layout`
returns a layout, concatenating the text of all Word elements across all
output lines, in order, equals the concatenation of the input words' text in
order (content round-trip modulo split seams). -/
theorem c4_content_round_trip (screen_width : Nat) (_hw : 1 ≤ screen_width)
    (ws : List StyledWord) (lines : List LayoutLine)
    (h : calculate_layout screen_width ws = some lines) :
    wordsText ((lines.map lineWords).flatten) = wordsText ws := by
  unfold calculate_layout get_words_in_lines at h
  have h1 := layoutLinesLoop_words _ lines h
  rw [h1, packAllGo_words_flatten screen_width _ _ le_rfl]
  exact wordsText_split_words screen_width ws

theorem c4_witness :
    wordsText (([LayoutLine.mk [LayoutElement.word wHello, LayoutElement.whitespace 1,
        LayoutElement.word wWorld]].map lineWords).flatten) = wordsText [wHello, wWorld] :=
  c4_content_round_trip 11 (by decide) [wHello, wWorld] _ (by decide)

/-- C5: `calculate_layout` is deterministic: identical inputs yield identical
outputs, and the gap sampler's selection is a function of its arguments alone
(the seed is a fixed constant baked into the definition; there is no hidden
state in the embedding, mirroring the absence of global mutable state in the
source). -/
theorem c5_deterministic (screen_width : Nat) (ws : List StyledWord) :
    calculate_layout screen_width ws = calculate_layout screen_width ws ∧
    ∀ count start stop, get_unique_random_numbers count start stop =
      get_unique_random_numbers count start stop :=
  ⟨rfl, fun _ _ _ => rfl⟩

/-- C6: the line packer partitions the split word stream into non-empty
lines by the single-pass greedy rule: it agrees with the spec-modelled
greedy partition, every produced line is nonempty, and the lines' words
concatenate back to the split stream. -/
theorem c6_greedy_packer (screen_width : Nat) (ws : List StyledWord) :
    get_words_in_lines screen_width ws =
      specGreedyPartition screen_width (split_words_longer_than_screen_width screen_width ws) ∧
    (∀ line ∈ get_words_in_lines screen_width ws, line.words ≠ []) ∧
    ((get_words_in_lines screen_width ws).map WordsInLine.words).flatten =
      split_words_longer_than_screen_width screen_width ws := by
  refine ⟨?_, ?_, ?_⟩
  · unfold get_words_in_lines specGreedyPartition
    rw [specGreedyGo_eq_packAllGo]
  · intro line hline
    unfold get_words_in_lines at hline
    exact packAllGo_words_ne_nil _ _ _ line hline
  · unfold get_words_in_lines
    exact packAllGo_words_flatten _ _ _ le_rfl

/-- C7: for target width at least 1, every word in the split stream has
length at most the target width; each word's chunks inherit its style and
concatenate back to its text; every chunk but the last is exactly the
target width long; and a word of length exactly the target width is
returned unchanged. -/
theorem c7_splitter (screen_width : Nat) (hw : 1 ≤ screen_width) (ws : List StyledWord) :
    (∀ c ∈ split_words_longer_than_screen_width screen_width ws,
       styled_word_length c ≤ screen_width) ∧
    ∀ word : StyledWord,
      (∀ c ∈ splitWordLoop screen_width word, c.style = word.style) ∧
      wordsText (splitWordLoop screen_width word) = word.text ∧
      (∀ c ∈ (splitWordLoop screen_width word).dropLast,
         styled_word_length c = screen_width) ∧
      (styled_word_length word = screen_width → splitWordLoop screen_width word = [word]) := by
  constructor
  · intro c hc
    unfold split_words_longer_than_screen_width at hc
    rw [List.mem_flatten] at hc
    obtain ⟨chunks, hchunks, hc⟩ := hc
    rw [List.mem_map] at hchunks
    obtain ⟨word, _, rfl⟩ := hchunks
    exact splitWordGo_length_le screen_width hw _ word le_rfl c hc
  · intro word
    exact ⟨splitWordGo_style _ _ word, wordsText_splitWordLoop _ word,
      splitWordGo_dropLast _ _ word, fun he => splitWordGo_eq_self _ _ word (by
        simp only [styled_word_length] at he ⊢
        omega)⟩

theorem c7_witness :
    (∀ c ∈ split_words_longer_than_screen_width 5 [wLong], styled_word_length c ≤ 5) ∧
    wordsText (splitWordLoop 5 wLong) = wLong.text ∧
    splitWordLoop 5 wHello = [wHello] :=
  ⟨(c7_splitter 5 (by decide) [wLong]).1,
   ((c7_splitter 5 (by decide) [wLong]).2 wLong).2.1,
   ((c7_splitter 5 (by decide) [wLong]).2 wHello).2.2.2 (by decide)⟩

/-- C8: for target width at least 1, no line produced by a successful
`calculate_layout` contains a whitespace element of width 0. -/
theorem c8_no_zero_whitespace (screen_width : Nat) (_hw : 1 ≤ screen_width)
    (ws : List StyledWord) (lines : List LayoutLine)
    (h : calculate_layout screen_width ws = some lines) :
    ∀ line ∈ lines, LayoutElement.whitespace 0 ∉ line.elements := by
  unfold calculate_layout at h
  exact layoutLinesLoop_no_zero _ lines h

theorem c8_witness :
    LayoutElement.whitespace 0 ∉ (LayoutLine.mk [LayoutElement.word wHello,
        LayoutElement.whitespace 1, LayoutElement.word wWorld]).elements :=
  c8_no_zero_whitespace 11 (by decide) [wHello, wWorld]
    [LayoutLine.mk [LayoutElement.word wHello, LayoutElement.whitespace 1,
      LayoutElement.word wWorld]] (by decide)
    (LayoutLine.mk [LayoutElement.word wHello, LayoutElement.whitespace 1,
      LayoutElement.word wWorld]) (by decide)

/-- C9: the loops terminate because their measures decrease: for target
width at least 1, splitting an oversized word shrinks it by exactly the
target width, and packing one line always consumes at least one word of the
stream. -/
theorem c9_termination_measures (screen_width : Nat) (hw : 1 ≤ screen_width) :
    (∀ word : StyledWord, screen_width < styled_word_length word →
       styled_word_length (split_styled_word word screen_width).2 =
         styled_word_length word - screen_width ∧
       styled_word_length (split_styled_word word screen_width).2 <
         styled_word_length word) ∧
    (∀ (remaining_space : Nat) (w : StyledWord) (rest : List StyledWord),
       (packLine remaining_space (w :: rest)).2.2.length < (w :: rest).length) := by
  constructor
  · intro word hlt
    cases word with
    | mk t s =>
      simp only [split_styled_word, styled_word_length] at hlt ⊢
      simp only [List.length_drop]
      exact ⟨by trivial, by omega⟩
  · intro rs w rest
    exact packLine_rem_length_lt rs w rest

theorem c9_witness :
    (styled_word_length (split_styled_word wLong 5).2 = styled_word_length wLong - 5 ∧
     styled_word_length (split_styled_word wLong 5).2 < styled_word_length wLong) ∧
    (packLine 10 (wAA :: [wBB])).2.2.length < (wAA :: [wBB]).length :=
  ⟨(c9_termination_measures 5 (by decide)).1 wLong (by decide),
   (c9_termination_measures 5 (by decide)).2 10 wAA [wBB]⟩

/-- C10: for every target width, an empty word sequence lays out to an empty
sequence of lines without failing. -/
theorem c10_empty_input (screen_width : Nat) :
    calculate_layout screen_width [] = some [] := rfl

end MdLayout
